import Mathlib

/-!
Shallow embedding of the tangle-ordering engine of go-ssb-refs
(`tangles.go` / `ByPrevious` in the second tangle file) together with the
reference-identity comparison of `refs.go` (`MessageRef.Equal`).

Go machine behaviour is modelled explicitly:
* a `panic` is the `GoError.panic` value of an `Except`,
* possibly non-terminating recursion carries a fuel parameter; `none`
  means the recursion did not finish within the given bound (so
  "`= none` for every fuel" is divergence),
* the Go map `pointsToMap` is an association list with overwriting
  insertion and first-match lookup (keys stay unique).
-/

namespace SsbRefs

def exceptDecEq {ε α : Type} [DecidableEq ε] [DecidableEq α] :
    (a b : Except ε α) → Decidable (a = b)
  | .error e1, .error e2 =>
      if h : e1 = e2 then isTrue (by rw [h])
      else isFalse (fun hc => h (by cases hc; rfl))
  | .ok a1, .ok a2 =>
      if h : a1 = a2 then isTrue (by rw [h])
      else isFalse (fun hc => h (by cases hc; rfl))
  | .error _, .ok _ => isFalse (fun hc => Except.noConfusion hc)
  | .ok _, .error _ => isFalse (fun hc => Except.noConfusion hc)

instance {ε α : Type} [DecidableEq ε] [DecidableEq α] : DecidableEq (Except ε α) :=
  exceptDecEq

/-- A Go runtime panic, the only failure mode the tangle sorter has. -/
inductive GoError where
  | panic (msg : String)
deriving DecidableEq

/-- A message as the sorter sees it (`TangledPost`): its key
(`Key().Ref()`) and its previous/branch set (`Branches()`), where
`none` models a `nil` slice (the root marker) and `some l` the list of
`Ref()` strings of the branch pointers. -/
structure TangledPost where
  key : String
  branches : Option (List String)
deriving DecidableEq

/-- The `pointsToMap` type: `map[string][]string` as an association list. -/
abbrev PointsToMap : Type := List (String × List String)

/-- Go map lookup `m[x]` (first match; keys are kept unique by `pmInsert`). -/
def pmLookup : PointsToMap → String → Option (List String)
  | [], _ => none
  | (k, v) :: rest, x => if k = x then some v else pmLookup rest x

/-- Go map assignment `m[k] = v`: overwrite an existing binding or append. -/
def pmInsert : PointsToMap → String → List String → PointsToMap
  | [], k, v => [(k, v)]
  | (k', v') :: rest, k, v =>
      if k' = k then (k, v) :: rest else (k', v') :: pmInsert rest k v

/-- The sorter state `ByBranches` (identical to `ByPrevious` up to the
accessor used to obtain the previous-set): the item sequence, the
recorded root key and the adjacency index `before`. -/
structure ByBranches where
  Items : List TangledPost
  root : String
  before : PointsToMap
deriving DecidableEq

/-- The loop body of `FillLookup`: fold over the items, recording the key
of every `nil`-branches message as the (overwritten) root and inserting
`key -> branch refs` for the others. -/
def fillLookupLoop : List TangledPost → String → PointsToMap → String × PointsToMap
  | [], root, bf => (root, bf)
  | m :: rest, root, bf =>
      match m.branches with
      | none => fillLookupLoop rest m.key bf
      | some brs => fillLookupLoop rest root (pmInsert bf m.key brs)

/-- `FillLookup`: build the adjacency index; the Go code panics
(`"no root?!"`) when no message had a `nil` previous-set (the root string
is still its zero value `""`). -/
def FillLookup (items : List TangledPost) : Except GoError ByBranches :=
  let rb := fillLookupLoop items "" []
  if rb.1 = "" then .error (.panic "no root?!")
  else .ok ⟨items, rb.1, rb.2⟩

/-- The `for` loop of `pointsTo`: walk the candidate list, returning true
on a direct hit or a positive recursive answer, false when the list is
exhausted; `recurse` is the enclosing `pointsTo` at one fuel less and
`none` (out of fuel) aborts the whole loop, as divergence does in Go. -/
def pointsToGo (recurse : String → String → Option Bool) :
    List String → String → Option Bool
  | [], _ => some false
  | c :: rest, y =>
      if c = y then some true
      else
        match recurse c y with
        | none => none
        | some true => some true
        | some false => pointsToGo recurse rest y

/-- `pointsTo(x, y)`: does `x` transitively point to `y` through the
adjacency index.  The Go recursion has no termination guard, so the
embedding takes a fuel bound. -/
def pointsToF (bct : ByBranches) : Nat → String → String → Option Bool
  | 0, _, _ => none
  | fuel + 1, x, y =>
      match pmLookup bct.before x with
      | none => some false
      | some ptrs => pointsToGo (pointsToF bct fuel) ptrs y

/-- `sort.Ints(found)` followed by `found[len(found)-1]`: ascending sort
then last element, i.e. the maximum of the collected path lengths. -/
def maxFound : List Int → Int
  | [] => 0
  | x :: rest => rest.foldl max x

/-- The `for` loop of `hopsToRoot`: collect `hop+1` for candidates that
are the root, recurse for the others and keep positive results; a panic
(`Except.error`) in a recursive call aborts the loop like in Go, and
`none` is the out-of-fuel marker. -/
def hopsGo (root : String) (recurse : String → Int → Option (Except GoError Int)) :
    List String → Int → Option (Except GoError (List Int))
  | [], _ => some (.ok [])
  | c :: rest, hop =>
      if c = root then
        match hopsGo root recurse rest hop with
        | none => none
        | some (.error e) => some (.error e)
        | some (.ok fs) => some (.ok ((hop + 1) :: fs))
      else
        match recurse c (hop + 1) with
        | none => none
        | some (.error e) => some (.error e)
        | some (.ok h) =>
            match hopsGo root recurse rest hop with
            | none => none
            | some (.error e) => some (.error e)
            | some (.ok fs) => some (.ok (if h > 0 then h :: fs else fs))

/-- `hopsToRoot(key, hop)`: the root returns `hop`; a key without an
index entry panics (`"untangled message which isnt root:" + key`); an
empty `found` list panics (`"not pointing to root?"`); otherwise the
maximum collected length is returned. -/
def hopsToRootF (bct : ByBranches) : Nat → String → Int → Option (Except GoError Int)
  | 0, _, _ => none
  | fuel + 1, key, hop =>
      if key = bct.root then some (.ok hop)
      else
        match pmLookup bct.before key with
        | none => some (.error (.panic ("untangled message which isnt root:" ++ key)))
        | some ptrs =>
            match hopsGo bct.root (hopsToRootF bct fuel) ptrs hop with
            | none => none
            | some (.error e) => some (.error e)
            | some (.ok found) =>
                if found.length < 1 then some (.error (.panic "not pointing to root?"))
                else some (.ok (maxFound found))

/-- The key of `Items[i]` (`Items[i].Key().Ref()`); an out-of-range index
is padded with a dummy message, the theorems only use valid indices. -/
def keyAt (bct : ByBranches) (i : Nat) : String :=
  (bct.Items.getD i ⟨"", none⟩).key

/-- The body of `Less` at the level of the two keys: the `pointsTo` guard
returns false immediately, otherwise the two depths are compared. -/
def lessKeysF (bct : ByBranches) (fuel : Nat) (keyI keyJ : String) :
    Option (Except GoError Bool) :=
  match pointsToF bct fuel keyI keyJ with
  | none => none
  | some true => some (.ok false)
  | some false =>
      match hopsToRootF bct fuel keyI 0 with
      | none => none
      | some (.error e) => some (.error e)
      | some (.ok hI) =>
          match hopsToRootF bct fuel keyJ 0 with
          | none => none
          | some (.error e) => some (.error e)
          | some (.ok hJ) => some (.ok (decide (hI < hJ)))

/-- `Less(i, j)` of the sorter interface. -/
def LessF (bct : ByBranches) (fuel : Nat) (i j : Nat) : Option (Except GoError Bool) :=
  lessKeysF bct fuel (keyAt bct i) (keyAt bct j)

/-- `Swap(i, j)`: exchange `Items[i]` and `Items[j]` (simultaneous
assignment, both right-hand sides read before writing). -/
def SwapF (l : List TangledPost) (i j : Nat) : List TangledPost :=
  (l.set i (l.getD j ⟨"", none⟩)).set j (l.getD i ⟨"", none⟩)

/-- `MessageRef` of `refs.go`: hash bytes (`none` models a `nil` slice)
and algorithm tag. -/
structure MessageRef where
  Hash : Option (List Nat)
  Algo : String
deriving DecidableEq

/-- `MessageRef.Equal`: false for a `nil` argument, false on differing
algos, true when either hash is `nil`, otherwise `bytes.Equal` on the
contents. -/
def MessageRef.Equal (ref : MessageRef) (other : Option MessageRef) : Bool :=
  match other with
  | none => false
  | some o =>
      if ref.Algo ≠ o.Algo then false
      else if ref.Hash.isNone || o.Hash.isNone then true
      else ref.Hash.getD [] == o.Hash.getD []

/-- Modelled from the spec: `Heads` is not among the supplied source
files (only its callers in the test files are).  §4.5: a message is a
head iff no other message in the set lists it in its previous-set,
computed by subtracting every identity that appears as a previous-target
in the adjacency index from the full identity set. -/
def isReferenced (bct : ByBranches) (k : String) : Bool :=
  bct.before.any (fun kv => kv.2.contains k)

/-- Modelled from the spec: the head list, see `isReferenced`. -/
def Heads (bct : ByBranches) : List String :=
  (bct.Items.map (fun m => m.key)).filter (fun k => !isReferenced bct k)

/-- The comparator as a total Boolean function on messages, for feeding a
sort routine: a comparison that would diverge or panic is mapped to
`false`; on a well-formed tangle that branch is unreachable. -/
def lessB (bct : ByBranches) (fuel : Nat) (a b : TangledPost) : Bool :=
  match lessKeysF bct fuel a.key b.key with
  | some (.ok v) => v
  | _ => false

/-- Modelled from the spec: the sort entry point (§6) reorders the
message sequence according to the §4.4 comparator; the in-place sort
routine itself (Go's `sort.Sort`) is not part of this repository, so it
is modelled as a stable insertion sort over the comparator, with
`a ≤ b` meaning `¬ Less(b, a)`. -/
def sortTangle (bct : ByBranches) (fuel : Nat) : List TangledPost :=
  List.insertionSort (fun a b => lessB bct fuel b a = false) bct.Items

/-! Specification-side definitions, used as hypotheses and reference
values for the claims (the claims speak about well-formed tangles,
reachability and longest paths). -/

/-- Every chain of previous-edges starting at `x` reaches the recorded
root within `n` steps, through nonempty previous-sets: the
well-formedness hypothesis of the claims about `hopsToRoot`. -/
def reachesRoot (bct : ByBranches) : Nat → String → Bool
  | 0, _ => false
  | n + 1, x =>
      if x = bct.root then true
      else
        match pmLookup bct.before x with
        | none => false
        | some ps => !ps.isEmpty && ps.all (fun c => reachesRoot bct n c)

/-- Every chain of previous-edges starting at `x` ends (at a key with no
index entry) within `n` steps: the acyclicity bound used by the
`pointsTo` claims. -/
def acyclicFrom (bct : ByBranches) : Nat → String → Bool
  | 0, _ => false
  | n + 1, x =>
      match pmLookup bct.before x with
      | none => true
      | some ps => ps.all (fun c => acyclicFrom bct n c)

/-- The maximum of a list of naturals, folded from the first element
(0 for the empty list). -/
def maxNat : List Nat → Nat
  | [] => 0
  | d :: tl => tl.foldl max d

/-- The reference depth: length of the longest previous-chain from `x`
to the root, computed to depth `n` (`0` beyond the bound; stable once
`reachesRoot` holds, see `lpDepth_stable`). -/
def lpDepth (bct : ByBranches) : Nat → String → Nat
  | 0, _ => 0
  | n + 1, x =>
      if x = bct.root then 0
      else
        match pmLookup bct.before x with
        | none => 0
        | some ps => 1 + maxNat (ps.map (fun c => lpDepth bct n c))

/-- `pathOk x p`: `p` is the successor list of a previous-edge path from
`x` that ends at the root; its length is the edge count of the path. -/
def pathOk (bct : ByBranches) : String → List String → Bool
  | x, [] => x = bct.root
  | x, y :: rest =>
      (match pmLookup bct.before x with
       | none => false
       | some ps => ps.contains y) && pathOk bct y rest

/-- `y` is reachable from `x` along one or more previous-edges: it is in
`x`'s direct previous-set, or reachable from a member of it. -/
inductive Reaches (bct : ByBranches) : String → String → Prop where
  | direct {x y : String} {ps : List String} :
      pmLookup bct.before x = some ps → y ∈ ps → Reaches bct x y
  | via {x y z : String} {ps : List String} :
      pmLookup bct.before x = some ps → z ∈ ps → Reaches bct z y → Reaches bct x y

/-- `pointsTo(x, y)` runs forever: no fuel bound suffices. -/
def pointsToDiverges (bct : ByBranches) (x y : String) : Prop :=
  ∀ fuel, pointsToF bct fuel x y = none

/-- `hopsToRoot(x, hop)` runs forever: no fuel bound suffices. -/
def hopsDiverges (bct : ByBranches) (x : String) (hop : Int) : Prop :=
  ∀ fuel, hopsToRootF bct fuel x hop = none

/-- A two-message cycle (`a -> b -> a`) as a concrete adjacency index. -/
def cycleIndex : ByBranches :=
  ⟨[], "r", [("a", ["b"]), ("b", ["a"])]⟩

/-- A one-message cycle (`a -> a`) as a concrete adjacency index. -/
def selfLoopIndex : ByBranches :=
  ⟨[], "r", [("a", ["a"])]⟩

/-- A message whose previous-set names an identity (`"ghost"`) that is
not among the supplied messages. -/
def danglingIndex : ByBranches :=
  ⟨[⟨"r", none⟩, ⟨"m", some ["ghost"]⟩], "r", [("m", ["ghost"])]⟩

/-- The linear five-message chain of `TestBranchHelperHops`. -/
def chain5 : List TangledPost :=
  [⟨"p1", none⟩, ⟨"p2", some ["p1"]⟩, ⟨"p3", some ["p2"]⟩,
   ⟨"p4", some ["p3"]⟩, ⟨"p5", some ["p4"]⟩]

/-- The sorter state `FillLookup` builds from `chain5`. -/
def chain5Sorter : ByBranches :=
  ⟨chain5, "p1",
   [("p2", ["p1"]), ("p3", ["p2"]), ("p4", ["p3"]), ("p5", ["p4"])]⟩

/-- A two-message tangle: the root and one reply. -/
def pair2 : List TangledPost := [⟨"p1", none⟩, ⟨"p2", some ["p1"]⟩]

/-- The sorter state `FillLookup` builds from `pair2`. -/
def pair2Sorter : ByBranches := ⟨pair2, "p1", [("p2", ["p1"])]⟩

/-! Helper lemmas about `max` folds. -/

theorem foldl_max_init_le (tl : List Nat) : ∀ d : Nat, d ≤ tl.foldl max d := by
  induction tl with
  | nil => intro d; exact Nat.le_refl d
  | cons c tl ih =>
      intro d
      exact Nat.le_trans (Nat.le_max_left d c) (ih (max d c))

theorem foldl_max_mem_le (tl : List Nat) : ∀ d a : Nat, a ∈ tl → a ≤ tl.foldl max d := by
  induction tl with
  | nil => intro d a ha; cases ha
  | cons c tl ih =>
      intro d a ha
      rcases List.mem_cons.mp ha with h | h
      · subst h
        exact Nat.le_trans (Nat.le_max_right d a) (foldl_max_init_le tl (max d a))
      · exact ih (max d c) a h

theorem foldl_max_attained (tl : List Nat) :
    ∀ d : Nat, tl.foldl max d = d ∨ ∃ a ∈ tl, tl.foldl max d = a := by
  induction tl with
  | nil => intro d; exact Or.inl rfl
  | cons c tl ih =>
      intro d
      rcases ih (max d c) with h | ⟨a, ha, h⟩
      · rcases Nat.le_total d c with hdc | hcd
        · exact Or.inr ⟨c, List.mem_cons_self c tl, by
            show tl.foldl max (max d c) = c
            rw [h, Nat.max_eq_right hdc]⟩
        · exact Or.inl (by show tl.foldl max (max d c) = d; rw [h, Nat.max_eq_left hcd])
      · exact Or.inr ⟨a, List.mem_cons_of_mem c ha, h⟩

theorem maxNat_mem_le {a : Nat} {l : List Nat} (ha : a ∈ l) : a ≤ maxNat l := by
  cases l with
  | nil => cases ha
  | cons d tl =>
      rcases List.mem_cons.mp ha with h | h
      · subst h; exact foldl_max_init_le tl a
      · exact foldl_max_mem_le tl d a h

theorem maxNat_attained {l : List Nat} (hne : l ≠ []) : ∃ a ∈ l, maxNat l = a := by
  cases l with
  | nil => exact absurd rfl hne
  | cons d tl =>
      rcases foldl_max_attained tl d with h | ⟨a, ha, h⟩
      · exact ⟨d, List.mem_cons_self d tl, h⟩
      · exact ⟨a, List.mem_cons_of_mem d ha, h⟩

theorem foldl_max_shift {α : Type} (f : α → Nat) (tl : List α) :
    ∀ (k : Int) (d : Nat),
      (tl.map (fun c => k + (f c : Int))).foldl max (k + (d : Int))
        = k + (((tl.map f).foldl max d : Nat) : Int) := by
  induction tl with
  | nil => intro k d; rfl
  | cons c tl ih =>
      intro k d
      show (tl.map (fun c => k + (f c : Int))).foldl max
            (max (k + (d : Int)) (k + (f c : Int)))
          = k + (((tl.map f).foldl max (max d (f c)) : Nat) : Int)
      rw [show max (k + (d : Int)) (k + (f c : Int)) = k + ((max d (f c) : Nat) : Int)
        by omega]
      exact ih k (max d (f c))

theorem maxFound_shift {α : Type} (f : α → Nat) {ps : List α} (k : Int) (hne : ps ≠ []) :
    maxFound (ps.map (fun c => k + (f c : Int))) = k + (maxNat (ps.map f) : Int) := by
  cases ps with
  | nil => exact absurd rfl hne
  | cons c tl => exact foldl_max_shift f tl k (f c)

/-! Helper lemmas about the well-formedness bound and the reference depth. -/

theorem reachesRoot_succ (bct : ByBranches) :
    ∀ n x, reachesRoot bct n x = true → reachesRoot bct (n + 1) x = true := by
  intro n
  induction n with
  | zero => intro x h; simp [reachesRoot] at h
  | succ n ih =>
      intro x h
      rw [reachesRoot] at h
      rw [reachesRoot]
      by_cases hx : x = bct.root
      · rw [if_pos hx]
      · rw [if_neg hx] at h ⊢
        cases hl : pmLookup bct.before x with
        | none => rw [hl] at h; simp at h
        | some ps =>
            rw [hl] at h
            have h' : (!ps.isEmpty && ps.all fun c => reachesRoot bct n c) = true := h
            show (!ps.isEmpty && ps.all fun c => reachesRoot bct (n + 1) c) = true
            simp only [Bool.and_eq_true, List.all_eq_true] at h' ⊢
            exact ⟨h'.1, fun c hc => ih c (h'.2 c hc)⟩

theorem reachesRoot_mono (bct : ByBranches) {n m : Nat} {x : String}
    (hnm : n ≤ m) (h : reachesRoot bct n x = true) : reachesRoot bct m x = true := by
  induction m with
  | zero => exact Nat.le_zero.mp hnm ▸ h
  | succ m ih =>
      rcases Nat.lt_or_ge n (m + 1) with hlt | hge
      · exact reachesRoot_succ bct m x (ih (Nat.lt_succ_iff.mp hlt))
      · exact (Nat.le_antisymm hnm hge) ▸ h

theorem lpDepth_root (bct : ByBranches) : ∀ n, lpDepth bct n bct.root = 0 := by
  intro n
  cases n with
  | zero => rfl
  | succ n => rw [lpDepth, if_pos rfl]

theorem lpDepth_stable_succ (bct : ByBranches) :
    ∀ n x, reachesRoot bct n x = true → lpDepth bct (n + 1) x = lpDepth bct n x := by
  intro n
  induction n with
  | zero => intro x h; simp [reachesRoot] at h
  | succ n ih =>
      intro x h
      rw [reachesRoot] at h
      by_cases hx : x = bct.root
      · subst hx; rw [lpDepth_root, lpDepth_root]
      · rw [if_neg hx] at h
        cases hl : pmLookup bct.before x with
        | none => rw [hl] at h; simp at h
        | some ps =>
            rw [hl] at h
            have h' : (!ps.isEmpty && ps.all fun c => reachesRoot bct n c) = true := h
            simp only [Bool.and_eq_true, List.all_eq_true] at h'
            have e1 : lpDepth bct (n + 1 + 1) x
                = 1 + maxNat (ps.map fun c => lpDepth bct (n + 1) c) := by
              rw [lpDepth, if_neg hx, hl]
            have e2 : lpDepth bct (n + 1) x
                = 1 + maxNat (ps.map fun c => lpDepth bct n c) := by
              rw [lpDepth, if_neg hx, hl]
            rw [e1, e2,
              List.map_congr_left (fun c hc => ih c (h'.2 c hc))]

theorem lpDepth_stable (bct : ByBranches) {n m : Nat} {x : String}
    (hnm : n ≤ m) (h : reachesRoot bct n x = true) :
    lpDepth bct m x = lpDepth bct n x := by
  induction m with
  | zero => rw [Nat.le_zero.mp hnm]
  | succ m ih =>
      rcases Nat.lt_or_ge n (m + 1) with hlt | hge
      · have hnm' := Nat.lt_succ_iff.mp hlt
        rw [lpDepth_stable_succ bct m x (reachesRoot_mono bct hnm' h), ih hnm']
      · rw [Nat.le_antisymm hnm hge]

/-- Evaluation of `hopsToRoot` on a well-formed tangle: with fuel `n`
matching the well-formedness bound, `hopsToRoot(x, hop)` returns
`hop + lpDepth x` (first component), and the collection loop returns one
entry `hop + 1 + lpDepth c` per candidate (second component). -/
theorem hops_eval (bct : ByBranches) :
    ∀ n : Nat,
      (∀ x hop, reachesRoot bct n x = true → 0 ≤ hop →
          hopsToRootF bct n x hop = some (.ok (hop + (lpDepth bct n x : Int)))) ∧
      (∀ ps hop, (∀ c ∈ ps, reachesRoot bct n c = true) → 0 ≤ hop →
          hopsGo bct.root (hopsToRootF bct n) ps hop
            = some (.ok (ps.map (fun c => hop + 1 + (lpDepth bct n c : Int))))) := by
  intro n
  induction n with
  | zero =>
      constructor
      · intro x hop h _
        simp [reachesRoot] at h
      · intro ps hop hall _
        cases ps with
        | nil => rfl
        | cons c rest =>
            exact absurd (hall c (List.mem_cons_self c rest)) (by simp [reachesRoot])
  | succ n ih =>
      have hF : ∀ x hop, reachesRoot bct (n + 1) x = true → 0 ≤ hop →
          hopsToRootF bct (n + 1) x hop
            = some (.ok (hop + (lpDepth bct (n + 1) x : Int))) := by
        intro x hop h hhop
        by_cases hx : x = bct.root
        · subst hx
          rw [hopsToRootF, if_pos rfl, lpDepth_root]
          norm_num
        · rw [hopsToRootF, if_neg hx]
          rw [reachesRoot, if_neg hx] at h
          cases hl : pmLookup bct.before x with
          | none => rw [hl] at h; simp at h
          | some ps =>
              rw [hl] at h
              have h' : (!ps.isEmpty && ps.all fun c => reachesRoot bct n c) = true := h
              simp only [Bool.and_eq_true, List.all_eq_true] at h'
              have hne : ps ≠ [] := by
                intro he; subst he; simp at h'
              show (match hopsGo bct.root (hopsToRootF bct n) ps hop with
                    | none => none
                    | some (Except.error e) => some (Except.error e)
                    | some (Except.ok found) =>
                        if found.length < 1
                        then some (Except.error (GoError.panic "not pointing to root?"))
                        else some (Except.ok (maxFound found)))
                  = some (Except.ok (hop + (lpDepth bct (n + 1) x : Int)))
              rw [ih.2 ps hop (fun c hc => h'.2 c hc) hhop]
              have hpos : 0 < ps.length := List.length_pos.mpr hne
              have hlen : ¬ ((ps.map (fun c => hop + 1 + (lpDepth bct n c : Int))).length < 1) := by
                rw [List.length_map]; omega
              have hshift := maxFound_shift (fun c => lpDepth bct n c) (hop + 1) hne
              show (if (ps.map (fun c => hop + 1 + (lpDepth bct n c : Int))).length < 1
                    then some (Except.error (GoError.panic "not pointing to root?"))
                    else some (Except.ok (maxFound
                      (ps.map (fun c => hop + 1 + (lpDepth bct n c : Int))))))
                  = some (Except.ok (hop + (lpDepth bct (n + 1) x : Int)))
              rw [if_neg hlen, hshift]
              have hlp : lpDepth bct (n + 1) x
                  = 1 + maxNat (ps.map fun c => lpDepth bct n c) := by
                rw [lpDepth, if_neg hx, hl]
              rw [hlp]
              push_cast
              ring_nf
      refine ⟨hF, ?_⟩
      intro ps
      induction ps with
      | nil => intro hop _ _; rfl
      | cons c rest ihp =>
          intro hop hall hhop
          rw [hopsGo]
          by_cases hc : c = bct.root
          · rw [if_pos hc,
              ihp hop (fun d hd => hall d (List.mem_cons_of_mem c hd)) hhop]
            show some (Except.ok ((hop + 1)
                  :: rest.map fun d => hop + 1 + (lpDepth bct (n + 1) d : Int)))
                = some (Except.ok
                    ((c :: rest).map fun d => hop + 1 + (lpDepth bct (n + 1) d : Int)))
            rw [List.map_cons, hc, lpDepth_root]
            norm_num
          · rw [if_neg hc,
              hF c (hop + 1) (hall c (List.mem_cons_self c rest)) (by omega),
              ihp hop (fun d hd => hall d (List.mem_cons_of_mem c hd)) hhop]
            show some (Except.ok (if (hop + 1 + (lpDepth bct (n + 1) c : Int)) > 0
                  then (hop + 1 + (lpDepth bct (n + 1) c : Int))
                    :: rest.map (fun d => hop + 1 + (lpDepth bct (n + 1) d : Int))
                  else rest.map (fun d => hop + 1 + (lpDepth bct (n + 1) d : Int))))
                = some (Except.ok
                    ((c :: rest).map fun d => hop + 1 + (lpDepth bct (n + 1) d : Int)))
            rw [if_pos (by omega), List.map_cons]

/-- Top-level evaluation of `hopsToRoot(x, 0)` on a well-formed tangle. -/
theorem hopsToRoot_eval (bct : ByBranches) (n : Nat) (x : String)
    (h : reachesRoot bct n x = true) :
    hopsToRootF bct n x 0 = some (.ok ((lpDepth bct n x : Int))) := by
  have := (hops_eval bct n).1 x 0 h (le_refl 0)
  simpa using this

/-- A longest path achieving `lpDepth` exists. -/
theorem lp_path_exists (bct : ByBranches) :
    ∀ n x, reachesRoot bct n x = true →
      ∃ p, pathOk bct x p = true ∧ p.length = lpDepth bct n x := by
  intro n
  induction n with
  | zero => intro x h; simp [reachesRoot] at h
  | succ n ih =>
      intro x h
      rw [reachesRoot] at h
      by_cases hx : x = bct.root
      · subst hx
        exact ⟨[], by simp [pathOk], by rw [lpDepth_root]; rfl⟩
      · rw [if_neg hx] at h
        cases hl : pmLookup bct.before x with
        | none => rw [hl] at h; simp at h
        | some ps =>
            rw [hl] at h
            have h' : (!ps.isEmpty && ps.all fun c => reachesRoot bct n c) = true := h
            simp only [Bool.and_eq_true, List.all_eq_true] at h'
            have hne : ps ≠ [] := by
              intro he; subst he; simp at h'
            obtain ⟨a, ha, hmax⟩ :=
              maxNat_attained (show (ps.map fun c => lpDepth bct n c) ≠ [] by
                simpa using hne)
            obtain ⟨c, hc, rfl⟩ := List.mem_map.mp ha
            obtain ⟨p, hp, hlen⟩ := ih c (h'.2 c hc)
            have hlp : lpDepth bct (n + 1) x
                = 1 + maxNat (ps.map fun c => lpDepth bct n c) := by
              rw [lpDepth, if_neg hx, hl]
            refine ⟨c :: p, ?_, ?_⟩
            · rw [pathOk, hl]
              simp only [Bool.and_eq_true]
              exact ⟨List.elem_iff.mpr hc, hp⟩
            · rw [List.length_cons, hlp, hmax, hlen]
              omega

/-- Every path back to the root is bounded by `lpDepth`. -/
theorem lp_path_ub (bct : ByBranches) (hroot : pmLookup bct.before bct.root = none) :
    ∀ n x, reachesRoot bct n x = true →
      ∀ p, pathOk bct x p = true → p.length ≤ lpDepth bct n x := by
  intro n
  induction n with
  | zero => intro x h; simp [reachesRoot] at h
  | succ n ih =>
      intro x h p hp
      by_cases hx : x = bct.root
      · subst hx
        cases p with
        | nil => simp [lpDepth_root]
        | cons y rest => rw [pathOk, hroot] at hp; simp at hp
      · rw [reachesRoot, if_neg hx] at h
        cases hl : pmLookup bct.before x with
        | none => rw [hl] at h; simp at h
        | some ps =>
            rw [hl] at h
            have h' : (!ps.isEmpty && ps.all fun c => reachesRoot bct n c) = true := h
            simp only [Bool.and_eq_true, List.all_eq_true] at h'
            cases p with
            | nil => simp [pathOk] at hp; exact absurd hp hx
            | cons y rest =>
                rw [pathOk, hl] at hp
                simp only [Bool.and_eq_true] at hp
                have hy : y ∈ ps := List.elem_iff.mp hp.1
                have hrec := ih y (h'.2 y hy) rest hp.2
                have hbound : lpDepth bct n y ≤ maxNat (ps.map fun c => lpDepth bct n c) :=
                  maxNat_mem_le (List.mem_map_of_mem _ hy)
                have hlp : lpDepth bct (n + 1) x
                    = 1 + maxNat (ps.map fun c => lpDepth bct n c) := by
                  rw [lpDepth, if_neg hx, hl]
                rw [List.length_cons, hlp]
                omega

/-- C1: on a well-formed tangle (every previous-chain reaches the
recorded root, which itself has no previous-entry), `hopsToRoot`
satisfies `hopsToRoot(root) = 0` and, for a non-root `x` with
previous-set `P`, `hopsToRoot(x) = 1 + max over p in P of
hopsToRoot(p)` (stated through the reference depth `lpDepth`, which each
`hopsToRoot` call returns); equivalently `hopsToRoot(x, 0)` is the edge
count of the longest path from `x` back to the root. -/
theorem hopsToRoot_correct (bct : ByBranches) (n : Nat) (x : String)
    (hwf : reachesRoot bct (n + 1) x = true)
    (hroot : pmLookup bct.before bct.root = none) :
    hopsToRootF bct (n + 1) bct.root 0 = some (.ok 0) ∧
    hopsToRootF bct (n + 1) x 0 = some (.ok ((lpDepth bct (n + 1) x : Int))) ∧
    (∀ ps, x ≠ bct.root → pmLookup bct.before x = some ps →
        lpDepth bct (n + 1) x = 1 + maxNat (ps.map fun c => lpDepth bct (n + 1) c) ∧
        ∀ c ∈ ps, hopsToRootF bct (n + 1) c 0
          = some (.ok ((lpDepth bct (n + 1) c : Int)))) ∧
    (∃ p, pathOk bct x p = true ∧ p.length = lpDepth bct (n + 1) x) ∧
    (∀ p, pathOk bct x p = true → p.length ≤ lpDepth bct (n + 1) x) := by
  refine ⟨?_, hopsToRoot_eval bct (n + 1) x hwf, ?_, lp_path_exists bct (n + 1) x hwf,
    lp_path_ub bct hroot (n + 1) x hwf⟩
  · rw [hopsToRootF, if_pos rfl]
  · intro ps hx hl
    have h := hwf
    rw [reachesRoot, if_neg hx, hl] at h
    have h' : (!ps.isEmpty && ps.all fun c => reachesRoot bct n c) = true := h
    simp only [Bool.and_eq_true, List.all_eq_true] at h'
    constructor
    · have hlp : lpDepth bct (n + 1) x
          = 1 + maxNat (ps.map fun c => lpDepth bct n c) := by
        rw [lpDepth, if_neg hx, hl]
      rw [hlp, List.map_congr_left
        (fun c hc => lpDepth_stable_succ bct n c (h'.2 c hc))]
    · intro c hc
      exact hopsToRoot_eval bct (n + 1) c (reachesRoot_succ bct n c (h'.2 c hc))

/-- Witness for C1 at the five-message chain of the repository's own
test: `hopsToRoot(p5, 0) = 4`. -/
theorem hopsToRoot_correct_witness :
    reachesRoot chain5Sorter 5 "p5" = true ∧
    pmLookup chain5Sorter.before chain5Sorter.root = none ∧
    hopsToRootF chain5Sorter 5 chain5Sorter.root 0 = some (.ok 0) ∧
    hopsToRootF chain5Sorter 5 "p5" 0 = some (.ok 4) := by
  have h := hopsToRoot_correct chain5Sorter 4 "p5" (by decide) (by decide)
  refine ⟨by decide, by decide, h.1, ?_⟩
  have h2 := h.2.1
  rw [show ((lpDepth chain5Sorter 5 "p5" : Int)) = 4 by decide] at h2
  exact h2

/-- `pointsTo` terminates (returns an answer) whenever every forward
chain from the start key is bounded. -/
theorem pointsTo_total (bct : ByBranches) :
    ∀ n : Nat,
      (∀ x y, acyclicFrom bct n x = true → ∃ b, pointsToF bct n x y = some b) ∧
      (∀ ps y, (∀ c ∈ ps, acyclicFrom bct n c = true) →
          ∃ b, pointsToGo (pointsToF bct n) ps y = some b) := by
  intro n
  induction n with
  | zero =>
      constructor
      · intro x y h; simp [acyclicFrom] at h
      · intro ps y hall
        cases ps with
        | nil => exact ⟨false, rfl⟩
        | cons c rest =>
            by_cases hc : c = y
            · exact ⟨true, by rw [pointsToGo, if_pos hc]⟩
            · exact absurd (hall c (List.mem_cons_self c rest)) (by simp [acyclicFrom])
  | succ n ih =>
      have hF : ∀ x y, acyclicFrom bct (n + 1) x = true →
          ∃ b, pointsToF bct (n + 1) x y = some b := by
        intro x y h
        rw [acyclicFrom] at h
        rw [pointsToF]
        cases hl : pmLookup bct.before x with
        | none => exact ⟨false, rfl⟩
        | some ps =>
            rw [hl] at h
            have h' : (ps.all fun c => acyclicFrom bct n c) = true := h
            simp only [List.all_eq_true] at h'
            exact ih.2 ps y h'
      refine ⟨hF, ?_⟩
      intro ps
      induction ps with
      | nil => intro y _; exact ⟨false, rfl⟩
      | cons c rest ihp =>
          intro y hall
          by_cases hc : c = y
          · exact ⟨true, by rw [pointsToGo, if_pos hc]⟩
          · obtain ⟨b, hb⟩ := hF c y (hall c (List.mem_cons_self c rest))
            cases b with
            | true => exact ⟨true, by rw [pointsToGo, if_neg hc, hb]⟩
            | false =>
                obtain ⟨b', hb'⟩ := ihp y (fun d hd => hall d (List.mem_cons_of_mem c hd))
                exact ⟨b', by rw [pointsToGo, if_neg hc, hb]; exact hb'⟩

/-- A true `pointsTo` answer gives reachability. -/
theorem pointsTo_sound_true (bct : ByBranches) :
    ∀ n x y, pointsToF bct n x y = some true → Reaches bct x y := by
  intro n
  induction n with
  | zero => intro x y h; exact Option.noConfusion h
  | succ n ih =>
      intro x y h
      rw [pointsToF] at h
      cases hl : pmLookup bct.before x with
      | none => rw [hl] at h; exact Bool.noConfusion (Option.some.inj h)
      | some ps =>
          rw [hl] at h
          have loop : ∀ ps', pointsToGo (pointsToF bct n) ps' y = some true →
              ∃ c ∈ ps', c = y ∨ Reaches bct c y := by
            intro ps'
            induction ps' with
            | nil => intro hh; exact Bool.noConfusion (Option.some.inj hh)
            | cons c rest ihp =>
                intro hh
                rw [pointsToGo] at hh
                by_cases hc : c = y
                · exact ⟨c, List.mem_cons_self c rest, Or.inl hc⟩
                · rw [if_neg hc] at hh
                  cases hrec : pointsToF bct n c y with
                  | none => rw [hrec] at hh; exact Option.noConfusion hh
                  | some b =>
                      cases b with
                      | false =>
                          rw [hrec] at hh
                          obtain ⟨c', hc', hor⟩ := ihp hh
                          exact ⟨c', List.mem_cons_of_mem c hc', hor⟩
                      | true =>
                          exact ⟨c, List.mem_cons_self c rest, Or.inr (ih c y hrec)⟩
          obtain ⟨c, hcmem, hor⟩ := loop ps h
          rcases hor with rfl | hr
          · exact Reaches.direct hl hcmem
          · exact Reaches.via hl hcmem hr

/-- Whenever `pointsTo` returns an answer at all and the target is
reachable, the answer is true. -/
theorem pointsTo_complete (bct : ByBranches) :
    ∀ n x y b, Reaches bct x y → pointsToF bct n x y = some b → b = true := by
  intro n
  induction n with
  | zero => intro x y b _ h; exact Option.noConfusion h
  | succ n ih =>
      intro x y b hr h
      rw [pointsToF] at h
      have loopAny : ∀ ps', pointsToGo (pointsToF bct n) ps' y = some b →
          (y ∈ ps' ∨ ∃ z ∈ ps', Reaches bct z y) → b = true := by
        intro ps'
        induction ps' with
        | nil =>
            intro _ hmem
            rcases hmem with h0 | ⟨z, h0, _⟩ <;> cases h0
        | cons c rest ihp =>
            intro hh hmem
            rw [pointsToGo] at hh
            by_cases hc : c = y
            · rw [if_pos hc] at hh; exact (Option.some.inj hh).symm
            · rw [if_neg hc] at hh
              cases hrec : pointsToF bct n c y with
              | none => rw [hrec] at hh; exact Option.noConfusion hh
              | some bc =>
                  cases bc with
                  | true => rw [hrec] at hh; exact (Option.some.inj hh).symm
                  | false =>
                      rw [hrec] at hh
                      refine ihp hh ?_
                      rcases hmem with hmemy | ⟨z, hzmem, hrz⟩
                      · rcases List.mem_cons.mp hmemy with rfl | hy'
                        · exact absurd rfl hc
                        · exact Or.inl hy'
                      · rcases List.mem_cons.mp hzmem with rfl | hz'
                        · exact absurd (ih z y false hrz hrec) Bool.false_ne_true
                        · exact Or.inr ⟨z, hz', hrz⟩
      cases hr
      case direct ps hl hy =>
          rw [hl] at h
          exact loopAny ps h (Or.inl hy)
      case via z ps hl hz hr' =>
          rw [hz] at h
          exact loopAny ps h (Or.inr ⟨z, hl, hr'⟩)

/-- C3: on an acyclic adjacency index, `pointsTo(x, y)` returns an
answer, and the answer is true exactly when `y` is reachable from `x`
along one or more previous-edges (directly in `x`'s previous-set or
transitively from one of its members). -/
theorem pointsTo_iff_reaches (bct : ByBranches) (n : Nat) (x y : String)
    (_hxy : x ≠ y) (hacy : acyclicFrom bct n x = true) :
    ∃ b, pointsToF bct n x y = some b ∧ (b = true ↔ Reaches bct x y) := by
  obtain ⟨b, hb⟩ := (pointsTo_total bct n).1 x y hacy
  exact ⟨b, hb, ⟨fun ht => pointsTo_sound_true bct n x y (ht ▸ hb),
    fun hr => pointsTo_complete bct n x y b hr hb⟩⟩

/-- Witness for C3 on the five-message chain: `pointsTo(p5, p1)` answers
within fuel 5 and the answer matches reachability. -/
theorem pointsTo_iff_reaches_witness :
    (("p5" : String) ≠ "p1" ∧ acyclicFrom chain5Sorter 5 "p5" = true) ∧
    (∃ b, pointsToF chain5Sorter 5 "p5" "p1" = some b ∧
      (b = true ↔ Reaches chain5Sorter "p5" "p1")) :=
  ⟨⟨by decide, by decide⟩,
    pointsTo_iff_reaches chain5Sorter 5 "p5" "p1" (by decide) (by decide)⟩

/-- The comparator short-circuits to false when the first key points to
the second. -/
theorem lessKeys_short (bct : ByBranches) (fuel : Nat) (kI kJ : String)
    (hpt : pointsToF bct fuel kI kJ = some true) :
    lessKeysF bct fuel kI kJ = some (.ok false) := by
  rw [lessKeysF, hpt]

/-- When the `pointsTo` guard answers false on a well-formed tangle, the
comparator returns exactly the depth comparison. -/
theorem lessKeys_eval (bct : ByBranches) (n : Nat) (kI kJ : String)
    (hI : reachesRoot bct n kI = true) (hJ : reachesRoot bct n kJ = true)
    (hpt : pointsToF bct n kI kJ = some false) :
    lessKeysF bct n kI kJ
      = some (.ok (decide (lpDepth bct n kI < lpDepth bct n kJ))) := by
  rw [lessKeysF, hpt, hopsToRoot_eval bct n kI hI, hopsToRoot_eval bct n kJ hJ]
  show some (Except.ok (decide ((lpDepth bct n kI : Int) < (lpDepth bct n kJ : Int))))
      = some (Except.ok (decide (lpDepth bct n kI < lpDepth bct n kJ)))
  rw [decide_eq_decide.mpr Nat.cast_lt]

/-- C2: on a well-formed tangle, `Less(i, j)` returns false whenever
`pointsTo(key_i, key_j)` holds; otherwise it returns exactly the depth
comparison `hopsToRoot(key_i) < hopsToRoot(key_j)`; and when the depths
are equal and neither key points to the other, `Less(i, j)` and
`Less(j, i)` are both false. -/
theorem less_correct (bct : ByBranches) (n i j : Nat)
    (hI : reachesRoot bct n (keyAt bct i) = true)
    (hJ : reachesRoot bct n (keyAt bct j) = true) :
    (pointsToF bct n (keyAt bct i) (keyAt bct j) = some true →
        LessF bct n i j = some (.ok false)) ∧
    (pointsToF bct n (keyAt bct i) (keyAt bct j) = some false →
        LessF bct n i j = some (.ok (decide
          (lpDepth bct n (keyAt bct i) < lpDepth bct n (keyAt bct j))))) ∧
    (pointsToF bct n (keyAt bct i) (keyAt bct j) = some false →
      pointsToF bct n (keyAt bct j) (keyAt bct i) = some false →
      lpDepth bct n (keyAt bct i) = lpDepth bct n (keyAt bct j) →
        LessF bct n i j = some (.ok false) ∧ LessF bct n j i = some (.ok false)) := by
  refine ⟨fun hpt => lessKeys_short bct n _ _ hpt,
    fun hpt => lessKeys_eval bct n _ _ hI hJ hpt, fun hij hji heq => ⟨?_, ?_⟩⟩
  · rw [show LessF bct n i j = lessKeysF bct n (keyAt bct i) (keyAt bct j) from rfl,
      lessKeys_eval bct n _ _ hI hJ hij, decide_eq_false (by omega)]
  · rw [show LessF bct n j i = lessKeysF bct n (keyAt bct j) (keyAt bct i) from rfl,
      lessKeys_eval bct n _ _ hJ hI hji, decide_eq_false (by omega)]

/-- Witness for C2 on the five-message chain: `p5` causally depends on
`p1`, so `Less(4, 0)` is false; `p2` does not depend on `p5` and is
shallower, so `Less(1, 4)` is true. -/
theorem less_correct_witness :
    reachesRoot chain5Sorter 5 "p5" = true ∧
    reachesRoot chain5Sorter 5 "p1" = true ∧
    LessF chain5Sorter 5 4 0 = some (.ok false) ∧
    LessF chain5Sorter 5 1 4 = some (.ok true) := by
  have h1 := less_correct chain5Sorter 5 4 0 (by decide) (by decide)
  have h2 := less_correct chain5Sorter 5 1 4 (by decide) (by decide)
  refine ⟨by decide, by decide, h1.1 (by decide), ?_⟩
  have := h2.2.1 (by decide)
  rw [this]
  decide

/-- When no message in the remaining items is previous-less, the root
accumulator of the `FillLookup` loop is left unchanged. -/
theorem fillLoop_root_const :
    ∀ (items : List TangledPost) (r : String) (bf : PointsToMap),
      (∀ m ∈ items, m.branches ≠ none) → (fillLookupLoop items r bf).1 = r := by
  intro items
  induction items with
  | nil => intro r bf _; rfl
  | cons m rest ih =>
      intro r bf hall
      rw [fillLookupLoop]
      cases hm : m.branches with
      | none => exact absurd hm (hall m (List.mem_cons_self m rest))
      | some brs =>
          exact ih r (pmInsert bf m.key brs)
            (fun m' hm' => hall m' (List.mem_cons_of_mem m hm'))

/-- The `FillLookup` loop processes an appended list in two stages. -/
theorem fillLoop_append :
    ∀ (l1 l2 : List TangledPost) (r : String) (bf : PointsToMap),
      fillLookupLoop (l1 ++ l2) r bf
        = fillLookupLoop l2 (fillLookupLoop l1 r bf).1 (fillLookupLoop l1 r bf).2 := by
  intro l1
  induction l1 with
  | nil => intro l2 r bf; rfl
  | cons m rest ih =>
      intro l2 r bf
      show fillLookupLoop (m :: (rest ++ l2)) r bf
          = fillLookupLoop l2 (fillLookupLoop (m :: rest) r bf).1
              (fillLookupLoop (m :: rest) r bf).2
      rw [fillLookupLoop, fillLookupLoop]
      cases hm : m.branches with
      | none => exact ih l2 m.key bf
      | some brs => exact ih l2 r (pmInsert bf m.key brs)

/-- C4 amended: `FillLookup` panics (`"no root?!"`) when no message has
an empty (nil) previous-set — a process abort, not a recoverable
`MissingRootError` — and when several messages have an empty
previous-set it silently records the last one as root and succeeds,
instead of failing with `MultipleRootsError`. -/
theorem fillLookup_behavior :
    (∀ items : List TangledPost, (∀ m ∈ items, m.branches ≠ none) →
        FillLookup items = .error (.panic "no root?!")) ∧
    (∀ (l1 l2 : List TangledPost) (m : TangledPost),
        m.branches = none → m.key ≠ "" → (∀ m' ∈ l2, m'.branches ≠ none) →
        ∃ bf, FillLookup (l1 ++ m :: l2) = .ok ⟨l1 ++ m :: l2, m.key, bf⟩) := by
  constructor
  · intro items hall
    have hr : (fillLookupLoop items "" []).1 = "" := fillLoop_root_const items "" [] hall
    have hFL : FillLookup items
        = if (fillLookupLoop items "" []).1 = ""
          then Except.error (GoError.panic "no root?!")
          else Except.ok (ByBranches.mk items (fillLookupLoop items "" []).1
            (fillLookupLoop items "" []).2) := rfl
    rw [hFL, if_pos hr]
  · intro l1 l2 m hm hk hall
    have h1 := fillLoop_append l1 (m :: l2) "" []
    have h2 : fillLookupLoop (m :: l2) (fillLookupLoop l1 "" []).1
          (fillLookupLoop l1 "" []).2
        = fillLookupLoop l2 m.key (fillLookupLoop l1 "" []).2 := by
      rw [fillLookupLoop, hm]
    have hroot : (fillLookupLoop (l1 ++ m :: l2) "" []).1 = m.key := by
      rw [h1, h2, fillLoop_root_const l2 m.key _ hall]
    refine ⟨(fillLookupLoop (l1 ++ m :: l2) "" []).2, ?_⟩
    have hFL : FillLookup (l1 ++ m :: l2)
        = if (fillLookupLoop (l1 ++ m :: l2) "" []).1 = ""
          then Except.error (GoError.panic "no root?!")
          else Except.ok (ByBranches.mk (l1 ++ m :: l2)
            (fillLookupLoop (l1 ++ m :: l2) "" []).1
            (fillLookupLoop (l1 ++ m :: l2) "" []).2) := rfl
    rw [hFL, hroot, if_neg hk]

/-- C4 counterexample: with no previous-less message `FillLookup` panics
instead of returning a `MissingRootError`, and with two previous-less
messages it succeeds, silently recording the last one (`r2`) as root,
instead of failing with `MultipleRootsError`. -/
theorem fillLookup_counterexample :
    FillLookup [⟨"a", some ["r"]⟩] = .error (.panic "no root?!") ∧
    FillLookup [⟨"r1", none⟩, ⟨"r2", none⟩]
      = .ok ⟨[⟨"r1", none⟩, ⟨"r2", none⟩], "r2", []⟩ :=
  ⟨by decide, by decide⟩

/-- Witness for the amended C4 statement at concrete inputs. -/
theorem fillLookup_behavior_witness :
    FillLookup [⟨"x", some ["y"]⟩] = .error (.panic "no root?!") ∧
    ∃ bf, FillLookup ([⟨"b", some ["r1"]⟩] ++ ⟨"r1", none⟩ :: [⟨"m", some ["r1"]⟩])
      = .ok ⟨[⟨"b", some ["r1"]⟩] ++ ⟨"r1", none⟩ :: [⟨"m", some ["r1"]⟩], "r1", bf⟩ :=
  ⟨fillLookup_behavior.1 _ (by decide),
   fillLookup_behavior.2 [⟨"b", some ["r1"]⟩] [⟨"m", some ["r1"]⟩] ⟨"r1", none⟩
     rfl (by decide) (by decide)⟩

/-- C5 amended: on cyclic input the traversal simply never terminates —
`pointsTo` and `hopsToRoot` return no result at any recursion bound —
and no `MalformedTangleError` is raised (the code defines no such
error; its only failure mode is `GoError.panic`, which cycles never
trigger). -/
theorem cycle_diverges (bct : ByBranches) (a y : String) (rest : List String)
    (hlk : pmLookup bct.before a = some (a :: rest))
    (hay : a ≠ y) (har : a ≠ bct.root) :
    pointsToDiverges bct a y ∧ hopsDiverges bct a 0 := by
  constructor
  · intro fuel
    induction fuel with
    | zero => rfl
    | succ n ih =>
        rw [pointsToF, hlk]
        show pointsToGo (pointsToF bct n) (a :: rest) y = none
        rw [pointsToGo, if_neg hay, ih]
  · have key : ∀ fuel hop, hopsToRootF bct fuel a hop = none := by
      intro fuel
      induction fuel with
      | zero => intro hop; rfl
      | succ n ih =>
          intro hop
          rw [hopsToRootF, if_neg har, hlk]
          show (match hopsGo bct.root (hopsToRootF bct n) (a :: rest) hop with
                | none => none
                | some (Except.error e) => some (Except.error e)
                | some (Except.ok found) =>
                    if found.length < 1
                    then some (Except.error (GoError.panic "not pointing to root?"))
                    else some (Except.ok (maxFound found)))
              = none
          have hgo : hopsGo bct.root (hopsToRootF bct n) (a :: rest) hop = none := by
            rw [hopsGo, if_neg har, ih (hop + 1)]
          rw [hgo]
    intro fuel
    exact key fuel 0

/-- C5 counterexample: on the concrete two-message cycle `a -> b -> a`,
`pointsTo(a, z)` and `hopsToRoot(a, 0)` return no result at any
recursion bound (they loop forever); no `MalformedTangleError` is
raised. -/
theorem cycle_counterexample :
    pointsToDiverges cycleIndex "a" "z" ∧ hopsDiverges cycleIndex "a" 0 := by
  have hp : ∀ fuel, pointsToF cycleIndex fuel "a" "z" = none ∧
      pointsToF cycleIndex fuel "b" "z" = none := by
    intro fuel
    induction fuel with
    | zero => exact ⟨rfl, rfl⟩
    | succ n ih =>
        constructor
        · rw [pointsToF, show pmLookup cycleIndex.before "a" = some ["b"] from rfl]
          show pointsToGo (pointsToF cycleIndex n) ["b"] "z" = none
          rw [pointsToGo, if_neg (by decide), ih.2]
        · rw [pointsToF, show pmLookup cycleIndex.before "b" = some ["a"] from rfl]
          show pointsToGo (pointsToF cycleIndex n) ["a"] "z" = none
          rw [pointsToGo, if_neg (by decide), ih.1]
  have hh : ∀ fuel, (∀ hop, hopsToRootF cycleIndex fuel "a" hop = none) ∧
      (∀ hop, hopsToRootF cycleIndex fuel "b" hop = none) := by
    intro fuel
    induction fuel with
    | zero => exact ⟨fun _ => rfl, fun _ => rfl⟩
    | succ n ih =>
        constructor
        · intro hop
          rw [hopsToRootF, if_neg (by decide),
            show pmLookup cycleIndex.before "a" = some ["b"] from rfl]
          show (match hopsGo cycleIndex.root (hopsToRootF cycleIndex n) ["b"] hop with
                | none => none
                | some (Except.error e) => some (Except.error e)
                | some (Except.ok found) =>
                    if found.length < 1
                    then some (Except.error (GoError.panic "not pointing to root?"))
                    else some (Except.ok (maxFound found)))
              = none
          have hgo : hopsGo cycleIndex.root (hopsToRootF cycleIndex n) ["b"] hop = none := by
            rw [hopsGo, if_neg (by decide), ih.2 (hop + 1)]
          rw [hgo]
        · intro hop
          rw [hopsToRootF, if_neg (by decide),
            show pmLookup cycleIndex.before "b" = some ["a"] from rfl]
          show (match hopsGo cycleIndex.root (hopsToRootF cycleIndex n) ["a"] hop with
                | none => none
                | some (Except.error e) => some (Except.error e)
                | some (Except.ok found) =>
                    if found.length < 1
                    then some (Except.error (GoError.panic "not pointing to root?"))
                    else some (Except.ok (maxFound found)))
              = none
          have hgo : hopsGo cycleIndex.root (hopsToRootF cycleIndex n) ["a"] hop = none := by
            rw [hopsGo, if_neg (by decide), ih.1 (hop + 1)]
          rw [hgo]
  exact ⟨fun fuel => (hp fuel).1, fun fuel => (hh fuel).1 0⟩

/-- Witness for the amended C5 statement at the concrete self-loop. -/
theorem cycle_diverges_witness :
    (pmLookup selfLoopIndex.before "a" = some ("a" :: []) ∧
      ("a" : String) ≠ "z" ∧ ("a" : String) ≠ selfLoopIndex.root) ∧
    (pointsToDiverges selfLoopIndex "a" "z" ∧ hopsDiverges selfLoopIndex "a" 0) :=
  ⟨⟨by decide, by decide, by decide⟩,
    cycle_diverges selfLoopIndex "a" "z" [] (by decide) (by decide) (by decide)⟩

/-- C6 amended: when a previous-reference names an identity with no
entry in the index, `hopsToRoot` panics
(`"untangled message which isnt root:" + key`) as soon as it reaches it
— a crash, not a recoverable `UnknownReferenceError` — while `pointsTo`
treats the dangling key as having no edges and returns false, silently
ignoring it. -/
theorem dangling_behavior (bct : ByBranches) (g y : String) (fuel : Nat) (hop : Int)
    (hg : pmLookup bct.before g = none) (hgr : g ≠ bct.root) :
    hopsToRootF bct (fuel + 1) g hop
      = some (.error (.panic ("untangled message which isnt root:" ++ g))) ∧
    pointsToF bct (fuel + 1) g y = some false := by
  constructor
  · rw [hopsToRootF, if_neg hgr, hg]
  · rw [pointsToF, hg]

/-- C6 counterexample: on the concrete input whose message `m` lists the
absent identity `ghost`, `hopsToRoot(m, 0)` panics (a crash, not an
`UnknownReferenceError`) and `pointsTo(m, z)` silently returns false. -/
theorem dangling_counterexample :
    hopsToRootF danglingIndex 3 "m" 0
      = some (.error (.panic "untangled message which isnt root:ghost")) ∧
    pointsToF danglingIndex 3 "m" "z" = some false :=
  ⟨by decide, by decide⟩

/-- Witness for the amended C6 statement at the dangling key itself. -/
theorem dangling_behavior_witness :
    (pmLookup danglingIndex.before "ghost" = none ∧
      ("ghost" : String) ≠ danglingIndex.root) ∧
    (hopsToRootF danglingIndex 3 "ghost" 1
        = some (.error (.panic ("untangled message which isnt root:" ++ "ghost"))) ∧
      pointsToF danglingIndex 3 "ghost" "z" = some false) :=
  ⟨⟨by decide, by decide⟩,
    dangling_behavior danglingIndex "ghost" "z" 2 1 (by decide) (by decide)⟩

/-- C8: sorting is idempotent — applying the modelled sort to a sequence
already sorted by the §4.4 comparator (no element is `Less` than a
predecessor) returns the identical sequence.
(`spec-modelled`: the sort routine itself is Go's `sort.Sort`, outside
this repository; it is modelled as the stable insertion sort
`sortTangle` over the repository's comparator.) -/
theorem sort_idempotent (bct : ByBranches) (fuel : Nat)
    (hsorted : List.Sorted (fun a b => lessB bct fuel b a = false) bct.Items) :
    sortTangle bct fuel = bct.Items :=
  hsorted.insertionSort_eq

/-- Witness for C8 on the five-message chain, which is already in causal
order. -/
theorem sort_idempotent_witness :
    List.Sorted (fun a b => lessB chain5Sorter 6 b a = false) chain5Sorter.Items ∧
    sortTangle chain5Sorter 6 = chain5Sorter.Items := by
  have hs : List.Sorted (fun a b => lessB chain5Sorter 6 b a = false)
      chain5Sorter.Items := by decide
  exact ⟨hs, sort_idempotent chain5Sorter 6 hs⟩

/-- Prepending the element read at position `m` to the list with `x`
written there is a permutation of prepending `x` to the original. -/
theorem cons_set_perm {α : Type} (d x : α) :
    ∀ (xs : List α) (m : Nat), m < xs.length →
      ((xs.getD m d) :: xs.set m x).Perm (x :: xs) := by
  intro xs
  induction xs with
  | nil => intro m hm; exact absurd hm (Nat.not_lt_zero m)
  | cons a t ih =>
      intro m hm
      cases m with
      | zero => exact List.Perm.swap x a t
      | succ m =>
          show ((t.getD m d) :: a :: t.set m x).Perm (x :: a :: t)
          have h1 : ((t.getD m d) :: a :: t.set m x).Perm
              (a :: (t.getD m d) :: t.set m x) :=
            List.Perm.swap a (t.getD m d) (t.set m x)
          have h2 : (a :: (t.getD m d) :: t.set m x).Perm (a :: x :: t) :=
            (ih m (Nat.lt_of_succ_lt_succ hm)).cons a
          exact (h1.trans h2).trans (List.Perm.swap x a t)

/-- `Swap(i, j)` only exchanges two positions: the result is a
permutation of the input. -/
theorem swapF_perm : ∀ (l : List TangledPost) (i j : Nat),
    i < l.length → j < l.length → (SwapF l i j).Perm l := by
  intro l
  induction l with
  | nil => intro i j hi _; exact absurd hi (Nat.not_lt_zero i)
  | cons a t ih =>
      intro i j hi hj
      cases i with
      | zero =>
          cases j with
          | zero => exact List.Perm.refl (a :: t)
          | succ m =>
              show ((t.getD m ⟨"", none⟩) :: t.set m a).Perm (a :: t)
              exact cons_set_perm _ a t m (Nat.lt_of_succ_lt_succ hj)
      | succ k =>
          cases j with
          | zero =>
              show ((t.getD k ⟨"", none⟩) :: t.set k a).Perm (a :: t)
              exact cons_set_perm _ a t k (Nat.lt_of_succ_lt_succ hi)
          | succ m =>
              show (a :: SwapF t k m).Perm (a :: t)
              exact (ih k m (Nat.lt_of_succ_lt_succ hi)
                (Nat.lt_of_succ_lt_succ hj)).cons a

/-- C9: sorting only reorders — `Swap` at valid indices produces a
permutation of the item sequence (the messages themselves, with their
identities and previous-sets, are untouched), and the modelled sort
output is a permutation of its input.
(`spec-modelled` for the sort routine, as in C8.) -/
theorem sort_only_reorders (bct : ByBranches) (fuel : Nat) (l : List TangledPost)
    (i j : Nat) (hi : i < l.length) (hj : j < l.length) :
    (SwapF l i j).Perm l ∧ (sortTangle bct fuel).Perm bct.Items :=
  ⟨swapF_perm l i j hi hj, List.perm_insertionSort _ _⟩

/-- Witness for C9 at concrete indices of the five-message chain. -/
theorem sort_only_reorders_witness :
    ((0 : Nat) < chain5.length ∧ (4 : Nat) < chain5.length) ∧
    ((SwapF chain5 0 4).Perm chain5 ∧ (sortTangle chain5Sorter 6).Perm chain5Sorter.Items) :=
  ⟨⟨by decide, by decide⟩,
    sort_only_reorders chain5Sorter 6 chain5 0 4 (by decide) (by decide)⟩

/-- C10: `MessageRef.Equal` returns true for any non-nil argument with
the same algo as soon as either hash is nil, regardless of the other
hash's bytes; and it returns false for a nil argument. -/
theorem messageRef_equal_nil (ref other : MessageRef)
    (halgo : ref.Algo = other.Algo)
    (hnil : ref.Hash = none ∨ other.Hash = none) :
    ref.Equal (some other) = true ∧ ref.Equal none = false := by
  constructor
  · show (if ref.Algo ≠ other.Algo then false
          else if ref.Hash.isNone || other.Hash.isNone then true
          else (ref.Hash.getD [] == other.Hash.getD [])) = true
    have hcond : (ref.Hash.isNone || other.Hash.isNone) = true := by
      rcases hnil with h | h <;> simp [h]
    rw [if_neg (not_not_intro halgo), if_pos hcond]
  · rfl

/-- Witness for C10: a nil-hash reference equals any same-algo
reference, and no reference equals nil. -/
theorem messageRef_equal_nil_witness :
    ((MessageRef.mk none "sha256").Algo = (MessageRef.mk (some [1, 2]) "sha256").Algo ∧
      ((MessageRef.mk none "sha256").Hash = none ∨
        (MessageRef.mk (some [1, 2]) "sha256").Hash = none)) ∧
    ((MessageRef.mk none "sha256").Equal (some (MessageRef.mk (some [1, 2]) "sha256")) = true ∧
      (MessageRef.mk none "sha256").Equal none = false) :=
  ⟨⟨rfl, Or.inl rfl⟩,
    messageRef_equal_nil (MessageRef.mk none "sha256")
      (MessageRef.mk (some [1, 2]) "sha256") rfl (Or.inl rfl)⟩

/-- Members of `pmInsert bf k v` are the new binding or old members. -/
theorem pmInsert_mem :
    ∀ (bf : PointsToMap) (k : String) (v : List String) (p : String × List String),
      p ∈ pmInsert bf k v → p = (k, v) ∨ p ∈ bf := by
  intro bf
  induction bf with
  | nil =>
      intro k v p hp
      rw [pmInsert] at hp
      exact Or.inl (List.mem_singleton.mp hp)
  | cons q rest ih =>
      intro k v p hp
      obtain ⟨k', v'⟩ := q
      rw [pmInsert] at hp
      by_cases hk : k' = k
      · rw [if_pos hk] at hp
        rcases List.mem_cons.mp hp with h | h
        · exact Or.inl h
        · exact Or.inr (List.mem_cons_of_mem _ h)
      · rw [if_neg hk] at hp
        rcases List.mem_cons.mp hp with h | h
        · exact Or.inr (h ▸ List.mem_cons_self _ _)
        · rcases ih k v p h with h' | h'
          · exact Or.inl h'
          · exact Or.inr (List.mem_cons_of_mem _ h')

/-- The keys of `pmInsert bf k v` are `k` or keys of `bf`. -/
theorem pmInsert_fst_mem (bf : PointsToMap) (k : String) (v : List String) (a : String)
    (ha : a ∈ (pmInsert bf k v).map Prod.fst) : a = k ∨ a ∈ bf.map Prod.fst := by
  obtain ⟨p, hp, rfl⟩ := List.mem_map.mp ha
  rcases pmInsert_mem bf k v p hp with h | h
  · exact Or.inl (by rw [h])
  · exact Or.inr (List.mem_map_of_mem _ h)

/-- `pmInsert` keeps the keys unique (the Go map invariant). -/
theorem pmInsert_nodupKeys :
    ∀ (bf : PointsToMap) (k : String) (v : List String),
      (bf.map Prod.fst).Nodup → ((pmInsert bf k v).map Prod.fst).Nodup := by
  intro bf
  induction bf with
  | nil => intro k v _; exact List.nodup_singleton _
  | cons q rest ih =>
      intro k v hnd
      obtain ⟨k', v'⟩ := q
      rw [pmInsert]
      by_cases hk : k' = k
      · rw [if_pos hk]
        subst hk
        exact hnd
      · rw [if_neg hk]
        rw [List.map_cons, List.nodup_cons] at hnd ⊢
        refine ⟨?_, ih k v hnd.2⟩
        intro hmem
        rcases pmInsert_fst_mem rest k v k' hmem with h | h
        · exact hk h
        · exact hnd.1 h

/-- With unique keys, list membership gives the lookup result. -/
theorem mem_pmLookup_of_nodupKeys :
    ∀ (bf : PointsToMap), (bf.map Prod.fst).Nodup →
      ∀ (k : String) (vs : List String), (k, vs) ∈ bf → pmLookup bf k = some vs := by
  intro bf
  induction bf with
  | nil => intro _ k vs h; cases h
  | cons q rest ih =>
      intro hnd k vs h
      obtain ⟨k', v'⟩ := q
      rw [List.map_cons, List.nodup_cons] at hnd
      rcases List.mem_cons.mp h with h0 | h0
      · cases h0
        rw [pmLookup, if_pos rfl]
      · rw [pmLookup]
        by_cases hk : k' = k
        · exfalso
          apply hnd.1
          subst hk
          exact List.mem_map.mpr ⟨(k', vs), h0, rfl⟩
        · rw [if_neg hk]
          exact ih hnd.2 k vs h0

/-- Every entry of the built index comes from a non-root item. -/
theorem fillLoop_entries :
    ∀ (items : List TangledPost) (r : String) (bf : PointsToMap)
      (p : String × List String),
      p ∈ (fillLookupLoop items r bf).2 →
      p ∈ bf ∨ ∃ m ∈ items, m.key = p.1 ∧ m.branches = some p.2 := by
  intro items
  induction items with
  | nil => intro r bf p hp; exact Or.inl hp
  | cons m rest ih =>
      intro r bf p hp
      rw [fillLookupLoop] at hp
      cases hm : m.branches with
      | none =>
          rw [hm] at hp
          rcases ih m.key bf p hp with h | ⟨m', hm', h1, h2⟩
          · exact Or.inl h
          · exact Or.inr ⟨m', List.mem_cons_of_mem m hm', h1, h2⟩
      | some brs =>
          rw [hm] at hp
          rcases ih r (pmInsert bf m.key brs) p hp with h | ⟨m', hm', h1, h2⟩
          · rcases pmInsert_mem bf m.key brs p h with h' | h'
            · subst h'
              exact Or.inr ⟨m, List.mem_cons_self m rest, rfl, hm⟩
            · exact Or.inl h'
          · exact Or.inr ⟨m', List.mem_cons_of_mem m hm', h1, h2⟩

/-- The built index has unique keys. -/
theorem fillLoop_nodupKeys :
    ∀ (items : List TangledPost) (r : String) (bf : PointsToMap),
      (bf.map Prod.fst).Nodup → (((fillLookupLoop items r bf).2).map Prod.fst).Nodup := by
  intro items
  induction items with
  | nil => intro r bf h; exact h
  | cons m rest ih =>
      intro r bf h
      rw [fillLookupLoop]
      cases hm : m.branches with
      | none => exact ih m.key bf h
      | some brs => exact ih r _ (pmInsert_nodupKeys bf m.key brs h)

/-- A nonempty list has an element maximising any natural measure. -/
theorem list_argmax {α : Type} (f : α → Nat) :
    ∀ (K : List α), K ≠ [] → ∃ k ∈ K, ∀ k' ∈ K, f k' ≤ f k := by
  intro K
  induction K with
  | nil => intro h; exact absurd rfl h
  | cons a rest ih =>
      intro _
      cases rest with
      | nil =>
          refine ⟨a, List.mem_cons_self a [], ?_⟩
          intro k' hk'
          rcases List.mem_singleton.mp hk' with rfl
          exact Nat.le_refl _
      | cons b rest' =>
          obtain ⟨k, hk, hmax⟩ := ih (by simp)
          rcases Nat.le_total (f a) (f k) with h | h
          · refine ⟨k, List.mem_cons_of_mem a hk, ?_⟩
            intro k' hk'
            rcases List.mem_cons.mp hk' with rfl | h'
            · exact h
            · exact hmax k' h'
          · refine ⟨a, List.mem_cons_self a _, ?_⟩
            intro k' hk'
            rcases List.mem_cons.mp hk' with rfl | h'
            · exact Nat.le_refl _
            · exact Nat.le_trans (hmax k' h') h

/-- A duplicate-free list whose members all equal one of its elements is
a singleton. -/
theorem nodup_all_eq_length_one {α : Type} {l : List α} {a : α}
    (hnd : l.Nodup) (hmem : a ∈ l) (hall : ∀ x ∈ l, x = a) : l.length = 1 := by
  cases l with
  | nil => cases hmem
  | cons b t =>
      have hb : b = a := hall b (List.mem_cons_self b t)
      cases t with
      | nil => rfl
      | cons c t' =>
          exfalso
          have hc : c = a := hall c (List.mem_cons_of_mem b (List.mem_cons_self c t'))
          rw [List.nodup_cons] at hnd
          apply hnd.1
          rw [hb, ← hc]
          exact List.mem_cons_self c t'

/-- C7: for a well-formed tangle built by `FillLookup` with distinct
keys, the head list contains exactly the messages no other message
lists in its previous-set, it is non-empty, and when exactly one
message is unreferenced it has length 1.
(`spec-modelled`: `Heads` itself is absent from the supplied sources;
`Heads`/`isReferenced` are modelled from §4.5 of the spec.) -/
theorem heads_correct (items : List TangledPost) (bct : ByBranches) (n : Nat)
    (hfl : FillLookup items = .ok bct)
    (hwf : ∀ m ∈ items, reachesRoot bct (n + 1) m.key = true)
    (hroot : pmLookup bct.before bct.root = none)
    (hnd : (items.map (fun m => m.key)).Nodup) :
    (∀ k, k ∈ Heads bct ↔
        (k ∈ items.map (fun m => m.key) ∧ isReferenced bct k = false)) ∧
    Heads bct ≠ [] ∧
    (∀ k0, k0 ∈ items.map (fun m => m.key) → isReferenced bct k0 = false →
      (∀ k', k' ∈ items.map (fun m => m.key) → isReferenced bct k' = false → k' = k0) →
      (Heads bct).length = 1) := by
  have hFL : FillLookup items
      = if (fillLookupLoop items "" []).1 = ""
        then Except.error (GoError.panic "no root?!")
        else Except.ok (ByBranches.mk items (fillLookupLoop items "" []).1
          (fillLookupLoop items "" []).2) := rfl
  rw [hFL] at hfl
  by_cases hr : (fillLookupLoop items "" []).1 = ""
  · rw [if_pos hr] at hfl; exact Except.noConfusion hfl
  · rw [if_neg hr] at hfl
    have hbct : ByBranches.mk items (fillLookupLoop items "" []).1
        (fillLookupLoop items "" []).2 = bct := Except.ok.inj hfl
    have hItems : bct.Items = items := by rw [← hbct]
    have hbefore : bct.before = (fillLookupLoop items "" []).2 := by rw [← hbct]
    have hndKeys : ((bct.before).map Prod.fst).Nodup := by
      rw [hbefore]; exact fillLoop_nodupKeys items "" [] List.nodup_nil
    have hsrc : ∀ p : String × List String, p ∈ bct.before →
        ∃ m ∈ items, m.key = p.1 ∧ m.branches = some p.2 := by
      intro p hp
      rw [hbefore] at hp
      rcases fillLoop_entries items "" [] p hp with h | h
      · cases h
      · exact h
    have hmem : ∀ k, k ∈ Heads bct ↔
        (k ∈ items.map (fun m => m.key) ∧ isReferenced bct k = false) := by
      intro k
      rw [Heads, hItems]
      constructor
      · intro h
        have h' := List.mem_filter.mp h
        refine ⟨h'.1, ?_⟩
        have h2 := h'.2
        cases hb : isReferenced bct k
        · rfl
        · rw [hb] at h2; simp at h2
      · rintro ⟨h1, h2⟩
        exact List.mem_filter.mpr ⟨h1, by rw [h2]; rfl⟩
    have hne : items ≠ [] := by
      intro he; subst he; exact hr rfl
    have hKne : items.map (fun m => m.key) ≠ [] := by simpa using hne
    obtain ⟨kmax, hkmem, hkmax⟩ :=
      list_argmax (fun k => lpDepth bct (n + 1) k) (items.map fun m => m.key) hKne
    have hUnref : isReferenced bct kmax = false := by
      cases hb : isReferenced bct kmax
      · rfl
      · exfalso
        rw [isReferenced, List.any_eq_true] at hb
        obtain ⟨kv, hkv, hcont⟩ := hb
        have hkmax_mem : kmax ∈ kv.2 := List.elem_iff.mp hcont
        obtain ⟨m, hm, hkey, hbr⟩ := hsrc kv hkv
        have hlk : pmLookup bct.before kv.1 = some kv.2 :=
          mem_pmLookup_of_nodupKeys bct.before hndKeys kv.1 kv.2 hkv
        have hknr : kv.1 ≠ bct.root := by
          intro he; rw [he, hroot] at hlk; exact Option.noConfusion hlk
        have hre : reachesRoot bct (n + 1) kv.1 = true := by
          have h0 := hwf m hm; rw [hkey] at h0; exact h0
        rw [reachesRoot, if_neg hknr, hlk] at hre
        have hre' : (!kv.2.isEmpty && kv.2.all fun c => reachesRoot bct n c) = true := hre
        simp only [Bool.and_eq_true, List.all_eq_true] at hre'
        have hreK : reachesRoot bct n kmax = true := hre'.2 kmax hkmax_mem
        have hlp1 : lpDepth bct (n + 1) kv.1
            = 1 + maxNat (kv.2.map fun c => lpDepth bct n c) := by
          rw [lpDepth, if_neg hknr, hlk]
        have hb1 : lpDepth bct n kmax ≤ maxNat (kv.2.map fun c => lpDepth bct n c) :=
          maxNat_mem_le (List.mem_map_of_mem _ hkmax_mem)
        have hstab : lpDepth bct (n + 1) kmax = lpDepth bct n kmax :=
          lpDepth_stable_succ bct n kmax hreK
        have hkv1K : kv.1 ∈ items.map (fun m => m.key) := by
          rw [← hkey]; exact List.mem_map_of_mem _ hm
        have hle := hkmax kv.1 hkv1K
        omega
    refine ⟨hmem, List.ne_nil_of_mem ((hmem kmax).mpr ⟨hkmem, hUnref⟩), ?_⟩
    intro k0 hk0 hk0un huniq
    have hHnd : (Heads bct).Nodup := by
      rw [Heads, hItems]; exact hnd.filter _
    have hk0mem : k0 ∈ Heads bct := (hmem k0).mpr ⟨hk0, hk0un⟩
    have hall : ∀ x ∈ Heads bct, x = k0 := by
      intro x hx
      obtain ⟨hx1, hx2⟩ := (hmem x).mp hx
      exact huniq x hx1 hx2
    exact nodup_all_eq_length_one hHnd hk0mem hall

/-- Witness for C7 on the two-message tangle: the single reply `p2` is
the only head. -/
theorem heads_correct_witness :
    (FillLookup pair2 = .ok pair2Sorter ∧
      pmLookup pair2Sorter.before pair2Sorter.root = none ∧
      (pair2.map (fun m => m.key)).Nodup) ∧
    Heads pair2Sorter ≠ [] ∧ (Heads pair2Sorter).length = 1 := by
  have h := heads_correct pair2 pair2Sorter 1 (by decide) (by decide) (by decide)
    (by decide)
  exact ⟨⟨by decide, by decide, by decide⟩, h.2.1,
    h.2.2 "p2" (by decide) (by decide) (by decide)⟩

end SsbRefs
